import Mathlib

set_option maxRecDepth 8192

/-!
# Verification of the compression/decompression core

Shallow embedding of `src/project/src/utils/compressionAlgorithms.ts`.

Modelling conventions:
* A JavaScript string is modelled as a `List Char`; indexing `s[i]` becomes
  `List.get?`, `s.substring(a, b)` becomes `(s.take b).drop a`, and the empty
  string `''` used as an "absent" next character becomes `none : Option Char`.
* Loops whose cursor advances by a computed amount are written as recursions;
  where the recursion is not structural on a list, an explicit fuel counter
  bounded by the input length is used (the cursor advances by at least one per
  iteration, so `data.length` units of fuel are never exhausted before the
  loop guard `i < data.length` fails).
* `new Blob([data]).size` is the UTF-8 byte length of the string, modelled via
  `Char.utf8Size`.
* Thrown JavaScript exceptions are modelled with `Except`/`Option`; the
  floating-point `compressionRatio` and the wall-clock `processingTime` of a
  result record are outside the embedding, as are the side-effect-only
  progress callbacks.
-/

namespace CompressionPortal

/-- The JS regex test `/\d/.test(c)`: ASCII decimal digit. -/
def isDigitChar (c : Char) : Bool :=
  48 ≤ c.toNat && c.toNat ≤ 57

/-- Negation of the JS regex test `/[^a-zA-Z0-9]/.test(c)`: ASCII alphanumeric. -/
def isAlphaNumChar (c : Char) : Bool :=
  (97 ≤ c.toNat && c.toNat ≤ 122) || (65 ≤ c.toNat && c.toNat ≤ 90) ||
    (48 ≤ c.toNat && c.toNat ≤ 57)

/-- `parseInt` applied to a non-empty string of decimal digits. -/
def parseNat (ds : List Char) : Nat :=
  ds.foldl (fun a c => a * 10 + (c.toNat - 48)) 0

/-! ## Huffman coding -/

/-- `HuffmanNode`: leaves carry the character (`char !== null`), internal
nodes carry only the aggregate frequency. -/
inductive HTree where
  | leaf (c : Char) (freq : Nat) : HTree
  | node (freq : Nat) (l r : HTree) : HTree
deriving DecidableEq

def HTree.freq : HTree → Nat
  | .leaf _ f => f
  | .node f _ _ => f

/-- One `freqTable.set(char, (freqTable.get(char) || 0) + 1)` step on a JS
`Map` kept as an insertion-ordered association list. -/
def bumpFreq : List (Char × Nat) → Char → List (Char × Nat)
  | [], c => [(c, 1)]
  | (k, v) :: rest, c =>
    if k = c then (k, v + 1) :: rest else (k, v) :: bumpFreq rest c

/-- `buildFrequencyTable`: one pass over the input. -/
def buildFrequencyTable (data : List Char) : List (Char × Nat) :=
  data.foldl bumpFreq []

/-- Stable insertion of a node into a freq-sorted list.  An earlier element
with equal frequency stays in front, matching the stable
`nodes.sort((a, b) => a.freq - b.freq)` required by ES2019. -/
def insertSorted (t : HTree) : List HTree → List HTree
  | [] => [t]
  | u :: us => if t.freq ≤ u.freq then t :: u :: us else u :: insertSorted t us

/-- Stable sort by frequency (the unique stable result of the JS sort). -/
def sortNodes : List HTree → List HTree
  | [] => []
  | t :: ts => insertSorted t (sortNodes ts)

/-- The merge loop of `buildHuffmanTree`: while more than one node remains,
sort by frequency, shift the two smallest, push their parent at the end.
The fuel starts at the node count; the list shrinks by one per iteration, so
the `0` fuel case with two or more nodes is unreachable, as is the sort
returning fewer elements than it was given. -/
def buildLoop : Nat → List HTree → Option HTree
  | _, [] => none
  | _, [t] => some t
  | 0, _ :: _ :: _ => none
  | fuel + 1, t1 :: t2 :: rest =>
    match sortNodes (t1 :: t2 :: rest) with
    | l :: r :: rest' => buildLoop fuel (rest' ++ [HTree.node (l.freq + r.freq) l r])
    | _ => none

/-- `buildHuffmanTree`: `null` for an empty table, the single leaf for a
one-symbol table, otherwise the merge loop. -/
def buildHuffmanTree (freqTable : List (Char × Nat)) : Option HTree :=
  let nodes := freqTable.map fun p => HTree.leaf p.1 p.2
  buildLoop nodes.length nodes

/-- `generateCodes`: depth-first traversal, `'0'` on the left and `'1'` on
the right; at a leaf the accumulated path is stored, with `code || '0'`
turning the empty root path into the single-bit code. -/
def generateCodes : HTree → List Char → List (Char × List Char)
  | .leaf c _, code => [(c, if code = [] then ['0'] else code)]
  | .node _ l r, code =>
    generateCodes l (code ++ ['0']) ++ generateCodes r (code ++ ['1'])

/-- The code table produced for an input: `generateCodes(buildHuffmanTree(
buildFrequencyTable(data)))`, empty when the tree is `null`. -/
def huffmanCodes (data : List Char) : List (Char × List Char) :=
  match buildHuffmanTree (buildFrequencyTable data) with
  | none => []
  | some t => generateCodes t []

/-- The encode loop `compressed += codes.get(char) || ''`. -/
def huffmanEncodeBits (codes : List (Char × List Char)) (data : List Char) : List Char :=
  data.foldl (fun acc c => acc ++ ((codes.lookup c).getD [])) []

/-- UTF-8 byte length, the `new Blob([data]).size` of a string. -/
def byteSize (data : List Char) : Nat :=
  (data.map Char.utf8Size).sum

/-- Contribution of one character to `JSON.stringify` output length, counted
in UTF-16 code units: `"` and `\` and the short control escapes cost 2,
other control characters cost 6 (`\u00XX`), astral characters cost 2. -/
def escLen (c : Char) : Nat :=
  if c = '"' ∨ c = '\\' then 2
  else if c.toNat = 8 ∨ c.toNat = 9 ∨ c.toNat = 10 ∨ c.toNat = 12 ∨ c.toNat = 13 then 2
  else if c.toNat < 32 then 6
  else if 65536 ≤ c.toNat then 2
  else 1

/-- Length of a JSON string literal for `s`. -/
def jsonStrLen (s : List Char) : Nat :=
  2 + (s.map escLen).sum

/-- `JSON.stringify(Object.fromEntries(codes)).length`: braces, one
`"key":"value"` per entry, comma-separated. -/
def headerSize (codes : List (Char × List Char)) : Nat :=
  2 + (codes.map fun p => jsonStrLen [p.1] + 1 + jsonStrLen p.2).sum + (codes.length - 1)

/-! ## LZ77 -/

/-- One `{ offset, length, nextChar }` triple; the empty-string `nextChar`
emitted at end of input is `none`. -/
structure LZTriple where
  offset : Nat
  length : Nat
  nextChar : Option Char
deriving DecidableEq

def windowSize : Nat := 4096

def lookAheadSize : Nat := 18

/-- The inner `while` of the match search: compare `window[j + k]` against
`lookAhead[k]` while `k < lookAhead.length && k < lookAheadSize`; the first
list argument is the window suffix starting at `j`.  Reading past the window
end yields `undefined` in JS, which fails the equality, hence the match can
never extend past the window. -/
def matchLenGo : List Char → List Char → Nat → Nat
  | w :: ws, l :: ls, cap + 1 => if w = l then matchLenGo ws ls cap + 1 else 0
  | _, _, _ => 0

/-- Match length at window start position `j`. -/
def matchLenAt (window lookAhead : List Char) (j : Nat) : Nat :=
  matchLenGo (window.drop j) lookAhead lookAheadSize

/-- The `for (let j = 0; ...)` scan: the suffix argument is `window.drop j`,
its length is the candidate offset `window.length - j`, and the best match is
replaced only on strictly greater length (`matchLength > bestMatch.length`),
so the first, i.e. largest-offset, position wins ties. -/
def findBestGo (lookAhead : List Char) : List Char → Nat × Nat → Nat × Nat
  | [], best => best
  | w :: ws, best =>
    let m := matchLenGo (w :: ws) lookAhead lookAheadSize
    findBestGo lookAhead ws (if best.2 < m then ((w :: ws).length, m) else best)

/-- The body of one compression-loop iteration at cursor `i`: window
`data.substring(max(0, i - windowSize), i)`, look-ahead
`data.substring(i, i + lookAheadSize)`, emitted `nextChar`
`data[i + length]` when in range. -/
def lz77EmitAt (data : List Char) (i : Nat) : LZTriple :=
  let windowStart := i - windowSize
  let window := (data.take i).drop windowStart
  let lookAhead := (data.drop i).take lookAheadSize
  let best := findBestGo lookAhead window (0, 0)
  ⟨best.1, best.2, data.get? (i + best.2)⟩

/-- The main compression loop: emit a triple at every cursor position, with
cursor advance `max(1, length)`.  Fuel `data.length` suffices since the
cursor gains at least one per step while the guard `i < data.length` holds. -/
def lz77Go (data : List Char) : Nat → Nat → List LZTriple
  | 0, _ => []
  | fuel + 1, i =>
    if i < data.length then
      lz77EmitAt data i :: lz77Go data fuel (i + max 1 (lz77EmitAt data i).length)
    else []

/-- `lz77Compress`'s emitted triple list (the payload before
`JSON.stringify`). -/
def lz77CompressData (data : List Char) : List LZTriple :=
  lz77Go data data.length 0

/-- The copy loop of `lz77Decompress`: `decompressed += decompressed[start + i]`
one character at a time, so a reference can read characters the copy itself
just wrote.  A read past the end (impossible for encoder output, where
`length ≤ offset ≤ output length`) appends nothing. -/
def lzCopy (out : List Char) (start : Nat) : Nat → List Char
  | 0 => out
  | k + 1 => lzCopy (out ++ (out.get? start).toList) (start + 1) k

/-- Replay of one triple: copy `length` characters from
`decompressed.length - offset`, then append `nextChar` if truthy. -/
def lz77Step (out : List Char) (t : LZTriple) : List Char :=
  let afterCopy := if 0 < t.length then lzCopy out (out.length - t.offset) t.length else out
  match t.nextChar with
  | some c => afterCopy ++ [c]
  | none => afterCopy

/-- `lz77Decompress` applied to the parsed triple list. -/
def lz77DecompressData (ts : List LZTriple) : List Char :=
  ts.foldl lz77Step []

/-! ## Run-length encoding -/

/-- The emission policy for a maximal run: `count > 3`, or `count > 1` with a
non-alphanumeric symbol, uses the `(count)(symbol)` form, otherwise the run
is written literally. -/
def emitRun (c : Char) (count : Nat) : List Char :=
  if 3 < count ∨ (1 < count ∧ isAlphaNumChar c = false) then
    Nat.toDigits 10 count ++ [c]
  else
    List.replicate count c

/-- The scan of `rleCompress`: extend the current run while the next
character matches and `count < 255`, otherwise emit the run and restart.
This is the source's two nested `while` loops fused into one pass. -/
def rleRun (c : Char) (count : Nat) : List Char → List Char
  | [] => emitRun c count
  | d :: rest =>
    if d = c ∧ count < 255 then rleRun c (count + 1) rest
    else emitRun c count ++ rleRun d 1 rest

/-- `rleCompress`'s output string. -/
def rleCompressData : List Char → List Char
  | [] => []
  | c :: rest => rleRun c 1 rest

/-- The scan of `rleDecompress`.  The first argument is the digit accumulator
`numStr` (`none` outside a digit run).  Exhausting the input while digits are
pending makes the source read `compressed[i] === undefined` and crash on
`.repeat`, modelled as `none`. -/
def rleDecodeGo : Option (List Char) → List Char → Option (List Char)
  | none, [] => some []
  | none, c :: rest =>
    if isDigitChar c then rleDecodeGo (some [c]) rest
    else (rleDecodeGo none rest).map fun t => c :: t
  | some _, [] => none
  | some numStr, c :: rest =>
    if isDigitChar c then rleDecodeGo (some (numStr ++ [c])) rest
    else (rleDecodeGo none rest).map fun t => List.replicate (parseNat numStr) c ++ t

/-- `rleDecompress`. -/
def rleDecompressData (s : List Char) : Option (List Char) :=
  rleDecodeGo none s

/-! ## Result records and the decode dispatcher -/

/-- A compressed payload: the string payloads of Huffman and RLE, or the
triple list that LZ77 round-trips through `JSON.stringify`/`JSON.parse`. -/
inductive Payload where
  | str (s : List Char) : Payload
  | triples (ts : List LZTriple) : Payload
deriving DecidableEq

/-- The `CompressionResult` record, minus the floating-point ratio and the
wall-clock time, which are outside the embedding. -/
structure CompressionResult where
  originalSize : Nat
  compressedSize : Nat
  algorithm : String
  compressedData : Payload
  originalData : List Char
deriving DecidableEq

def huffmanCompress (data : List Char) : CompressionResult :=
  let codes := huffmanCodes data
  let compressed := huffmanEncodeBits codes data
  ⟨byteSize data, (compressed.length + 7) / 8 + headerSize codes,
    "Huffman Coding", Payload.str compressed, data⟩

def rleCompress (data : List Char) : CompressionResult :=
  let compressed := rleCompressData data
  ⟨byteSize data, byteSize compressed, "Run-Length Encoding",
    Payload.str compressed, data⟩

def lz77Compress (data : List Char) : CompressionResult :=
  let compressed := lz77CompressData data
  ⟨byteSize data, compressed.length * 6, "LZ77", Payload.triples compressed, data⟩

/-- `decompressData`: dispatch on the algorithm name.  The RLE crash on a
trailing digit run surfaces as a `TypeError`; handing the LZ77 branch a
non-JSON string would make `JSON.parse` throw a `SyntaxError` (the triples
constructor stands for a successfully parsed stringified triple list); the
Huffman branch returns a fixed message string as a normal result; any other
name throws. -/
def decompressData (compressedData : Payload) (algorithm : String) :
    Except String (List Char) :=
  if algorithm = "Run-Length Encoding" then
    match compressedData with
    | Payload.str s =>
      match rleDecompressData s with
      | some out => Except.ok out
      | none => Except.error "TypeError"
    | Payload.triples _ => Except.error "TypeError"
  else if algorithm = "LZ77" then
    match compressedData with
    | Payload.triples ts => Except.ok (lz77DecompressData ts)
    | Payload.str _ => Except.error "SyntaxError"
  else if algorithm = "Huffman Coding" then
    Except.ok ("Huffman decompression requires the original code table".toList)
  else
    Except.error ("Unsupported algorithm: " ++ algorithm)

/-! ## General lemmas about the LZ77 match search -/

/-- The match-length scan never runs past the end of the window suffix. -/
theorem matchLenGo_le_length : ∀ (w la : List Char) (cap : Nat),
    matchLenGo w la cap ≤ w.length := by
  intro w
  induction w with
  | nil => intro la cap; cases la <;> cases cap <;> simp [matchLenGo]
  | cons x ws ih =>
    intro la cap
    cases la with
    | nil => cases cap <;> simp [matchLenGo]
    | cons l ls =>
      cases cap with
      | zero => simp [matchLenGo]
      | succ cap =>
        simp only [matchLenGo, List.length_cons]
        split
        · have := ih ls cap
          omega
        · omega

/-- The best-match scan preserves `length ≤ offset` in its accumulator. -/
theorem findBestGo_snd_le_fst (la : List Char) :
    ∀ (s : List Char) (best : Nat × Nat), best.2 ≤ best.1 →
      (findBestGo la s best).2 ≤ (findBestGo la s best).1 := by
  intro s
  induction s with
  | nil => intro best h; simpa [findBestGo] using h
  | cons w ws ih =>
    intro best h
    simp only [findBestGo]
    apply ih
    split
    · simpa using matchLenGo_le_length (w :: ws) la lookAheadSize
    · exact h

/-- The triple emitted at any cursor position satisfies `length ≤ offset`. -/
theorem lz77EmitAt_length_le_offset (data : List Char) (i : Nat) :
    (lz77EmitAt data i).length ≤ (lz77EmitAt data i).offset := by
  simp only [lz77EmitAt]
  exact findBestGo_snd_le_fst _ _ (0, 0) (Nat.le_refl 0)

/-- Every triple emitted by the compression loop satisfies
`length ≤ offset`: the match search cannot look past the window end. -/
theorem lz77Go_length_le_offset (data : List Char) :
    ∀ (fuel i : Nat) (t : LZTriple), t ∈ lz77Go data fuel i →
      t.length ≤ t.offset := by
  intro fuel
  induction fuel with
  | zero => intro i t ht; simp [lz77Go] at ht
  | succ fuel ih =>
    intro i t ht
    rw [lz77Go] at ht
    split at ht
    · simp only [List.mem_cons] at ht
      rcases ht with rfl | ht
      · exact lz77EmitAt_length_le_offset data i
      · exact ih _ t ht
    · simp at ht

/-- The best-match length never decreases along the scan. -/
theorem findBestGo_snd_mono (la : List Char) :
    ∀ (s : List Char) (best : Nat × Nat), best.2 ≤ (findBestGo la s best).2 := by
  intro s
  induction s with
  | nil => intro best; exact Nat.le_refl _
  | cons w ws ih =>
    intro best
    simp only [findBestGo]
    refine Nat.le_trans ?_ (ih _)
    split
    next h => exact Nat.le_of_lt h
    next h => exact Nat.le_refl _

/-- Every candidate match length is bounded by the final best length. -/
theorem findBestGo_le (la : List Char) :
    ∀ (s t : List Char) (best : Nat × Nat), t <:+ s → t ≠ [] →
      matchLenGo t la lookAheadSize ≤ (findBestGo la s best).2 := by
  intro s
  induction s with
  | nil =>
    intro t best hts htne
    exact absurd (List.suffix_nil.mp hts) htne
  | cons w ws ih =>
    intro t best hts htne
    rcases List.suffix_cons_iff.mp hts with rfl | hts'
    · simp only [findBestGo]
      refine Nat.le_trans ?_ (findBestGo_snd_mono la ws _)
      split
      next h => exact Nat.le_refl _
      next h => exact Nat.not_lt.mp h
    · simp only [findBestGo]
      exact ih t _ hts' htne

/-- Provenance of the final best match: either the accumulator survived
untouched, or the result came from some window suffix `t`, and every
strictly longer suffix — i.e. every earlier scan position — has a match
length strictly below the final best length. -/
theorem findBestGo_provenance (la : List Char) :
    ∀ (s : List Char) (best : Nat × Nat),
      findBestGo la s best = best ∨
      (best.2 < (findBestGo la s best).2 ∧
        ∃ t, t <:+ s ∧ t ≠ [] ∧
          findBestGo la s best = (t.length, matchLenGo t la lookAheadSize) ∧
          ∀ u, u <:+ s → t.length < u.length →
            matchLenGo u la lookAheadSize < (findBestGo la s best).2) := by
  intro s
  induction s with
  | nil => intro best; exact Or.inl rfl
  | cons w ws ih =>
    intro best
    simp only [findBestGo]
    by_cases hm : best.2 < matchLenGo (w :: ws) la lookAheadSize
    · rw [if_pos hm]
      rcases ih ((w :: ws).length, matchLenGo (w :: ws) la lookAheadSize) with
        heq | ⟨hlt, t, hts, htne, heq, hmax⟩
      · right
        rw [heq]
        refine ⟨hm, w :: ws, List.suffix_rfl, List.cons_ne_nil w ws, rfl, ?_⟩
        intro u hu hlen
        exact absurd (Nat.lt_of_lt_of_le hlen (List.IsSuffix.length_le hu))
          (Nat.lt_irrefl _)
      · right
        refine ⟨Nat.lt_trans hm hlt, t,
          List.IsSuffix.trans hts (List.suffix_cons w ws), htne, heq, ?_⟩
        intro u hu hlen
        rcases List.suffix_cons_iff.mp hu with rfl | hu'
        · exact hlt
        · exact hmax u hu' hlen
    · rw [if_neg hm]
      rcases ih best with heq | ⟨hlt, t, hts, htne, heq, hmax⟩
      · exact Or.inl heq
      · right
        refine ⟨hlt, t, List.IsSuffix.trans hts (List.suffix_cons w ws), htne, heq, ?_⟩
        intro u hu hlen
        rcases List.suffix_cons_iff.mp hu with rfl | hu'
        · exact Nat.lt_of_le_of_lt (Nat.not_lt.mp hm) hlt
        · exact hmax u hu' hlen

/-- A suffix is recovered by dropping the length difference. -/
theorem drop_sub_length_of_suffix (t w : List Char) (h : t <:+ w) :
    w.drop (w.length - t.length) = t := by
  obtain ⟨pre, rfl⟩ := h
  have hlen : (pre ++ t).length - t.length = pre.length := by
    simp [List.length_append]
  rw [hlen, List.drop_left]

/-! ## General lemmas about run-length encoding -/

/-- Decimal rendering facts for every count the encoder can emit in
`(count)(symbol)` form: the digit string is non-empty, all digits, and
parses back to the count. -/
theorem toDigits_facts : ∀ n, n < 256 → 2 ≤ n →
    Nat.toDigits 10 n ≠ [] ∧ (∀ d ∈ Nat.toDigits 10 n, isDigitChar d = true) ∧
    parseNat (Nat.toDigits 10 n) = n := by decide

/-- Decoding a literal run of a non-digit character passes it through. -/
theorem rleDecodeGo_replicate (c : Char) (hc : isDigitChar c = false) :
    ∀ (k : Nat) (s : List Char),
      rleDecodeGo none (List.replicate k c ++ s) =
        (rleDecodeGo none s).map fun t => List.replicate k c ++ t := by
  intro k
  induction k with
  | zero =>
    intro s
    simp only [List.replicate, List.nil_append]
    cases rleDecodeGo none s <;> simp
  | succ k ih =>
    intro s
    rw [List.replicate_succ, List.cons_append]
    simp only [rleDecodeGo, hc]
    rw [ih s]
    cases rleDecodeGo none s <;> simp [List.replicate_succ]

/-- The digit-accumulating branch of the decoder consumes a maximal digit
run followed by a non-digit character. -/
theorem rleDecodeGo_digits (c : Char) (hc : isDigitChar c = false) :
    ∀ (ds acc s : List Char), (∀ d ∈ ds, isDigitChar d = true) →
      rleDecodeGo (some acc) (ds ++ c :: s) =
        (rleDecodeGo none s).map fun t =>
          List.replicate (parseNat (acc ++ ds)) c ++ t := by
  intro ds
  induction ds with
  | nil =>
    intro acc s _
    simp only [List.nil_append, rleDecodeGo, hc, List.append_nil]
    simp
  | cons d ds ih =>
    intro acc s hds
    have hd : isDigitChar d = true := hds d (List.mem_cons_self d ds)
    simp only [List.cons_append, rleDecodeGo, hd, if_true, List.append_eq]
    rw [ih (acc ++ [d]) s fun x hx => hds x (List.mem_cons_of_mem d hx)]
    rw [List.append_assoc, List.singleton_append]

/-- Decoding a rendered count followed by a non-digit character replicates
that character. -/
theorem rleDecodeGo_count (c : Char) (ds s : List Char) (hne : ds ≠ [])
    (hds : ∀ d ∈ ds, isDigitChar d = true) (hc : isDigitChar c = false) :
    rleDecodeGo none (ds ++ c :: s) =
      (rleDecodeGo none s).map fun t => List.replicate (parseNat ds) c ++ t := by
  cases ds with
  | nil => exact absurd rfl hne
  | cons d ds' =>
    have hd : isDigitChar d = true := hds d (List.mem_cons_self d ds')
    simp only [List.cons_append, rleDecodeGo, hd, if_true, List.append_eq]
    rw [rleDecodeGo_digits c hc ds' [d] s fun x hx => hds x (List.mem_cons_of_mem d hx)]
    rw [List.singleton_append]

/-- Scanning into a replicated block accumulates its length into the run
counter (as long as the cap is not hit). -/
theorem rleRun_replicate (c : Char) :
    ∀ (j count : Nat) (rest : List Char), count + j ≤ 255 →
      rleRun c count (List.replicate j c ++ rest) = rleRun c (count + j) rest := by
  intro j
  induction j with
  | zero => intro count rest h; simp [List.replicate]
  | succ j ih =>
    intro count rest h
    rw [List.replicate_succ, List.cons_append]
    simp only [rleRun]
    rw [if_pos ⟨by trivial, by omega⟩]
    rw [ih (count + 1) rest (by omega)]
    congr 1
    omega

/-- Round-trip of the fused scan: decoding what `rleRun` emits restores the
pending run and the rest of a digit-free input. -/
theorem rleRun_roundtrip :
    ∀ (rest : List Char) (c : Char) (count : Nat), isDigitChar c = false →
      (∀ d ∈ rest, isDigitChar d = false) → 1 ≤ count → count ≤ 255 →
      rleDecodeGo none (rleRun c count rest) =
        some (List.replicate count c ++ rest) := by
  intro rest
  induction rest with
  | nil =>
    intro c count hc _ h1 h255
    simp only [rleRun, emitRun]
    split
    next hcond =>
      have h2 : 2 ≤ count := by rcases hcond with h | ⟨h, _⟩ <;> omega
      obtain ⟨hne, hdig, hparse⟩ := toDigits_facts count (by omega) h2
      rw [rleDecodeGo_count c (Nat.toDigits 10 count) [] hne hdig hc]
      simp [hparse, rleDecodeGo]
    next hcond =>
      have hrep := rleDecodeGo_replicate c hc count []
      rw [List.append_nil] at hrep
      rw [hrep]
      simp [rleDecodeGo]
  | cons d rest' ih =>
    intro c count hc hrest h1 h255
    have hd : isDigitChar d = false := hrest d (List.mem_cons_self d rest')
    have hrest' : ∀ x ∈ rest', isDigitChar x = false :=
      fun x hx => hrest x (List.mem_cons_of_mem d hx)
    simp only [rleRun]
    split
    next hcond =>
      obtain ⟨rfl, hlt⟩ := hcond
      rw [ih d (count + 1) hd hrest' (by omega) (by omega)]
      simp [List.replicate_succ', List.append_assoc]
    next hcond =>
      have htail := ih d 1 hd hrest' (Nat.le_refl 1) (by omega)
      by_cases hform : 3 < count ∨ (1 < count ∧ isAlphaNumChar c = false)
      · rw [emitRun, if_pos hform]
        have h2 : 2 ≤ count := by rcases hform with h | ⟨h, _⟩ <;> omega
        obtain ⟨hne, hdig, hparse⟩ := toDigits_facts count (by omega) h2
        rw [List.append_assoc, List.singleton_append]
        rw [rleDecodeGo_count c (Nat.toDigits 10 count) _ hne hdig hc]
        rw [htail]
        simp [hparse]
      · rw [emitRun, if_neg hform]
        rw [rleDecodeGo_replicate c hc count _]
        rw [htail]
        simp

/-- RLE round-trip for digit-free inputs (shared by the round-trip
claims). -/
theorem rle_roundtrip_of_noDigit (x : List Char)
    (hx : ∀ ch ∈ x, isDigitChar ch = false) :
    rleDecompressData (rleCompressData x) = some x := by
  cases x with
  | nil => rfl
  | cons c rest =>
    have hc := hx c (List.mem_cons_self c rest)
    have hrest : ∀ d ∈ rest, isDigitChar d = false :=
      fun d hd => hx d (List.mem_cons_of_mem c hd)
    simp only [rleCompressData, rleDecompressData]
    rw [rleRun_roundtrip rest c 1 hc hrest (Nat.le_refl 1) (by omega)]
    simp

/-! ## General lemmas about Huffman code generation -/

/-- Every code generated under a non-empty path extends that path. -/
theorem generateCodes_extends :
    ∀ (t : HTree) (p : List Char) (a : Char) (ca : List Char), p ≠ [] →
      (a, ca) ∈ generateCodes t p → ∃ q, ca = p ++ q := by
  intro t
  induction t with
  | leaf c f =>
    intro p a ca hp hmem
    simp only [generateCodes, if_neg hp, List.mem_singleton, Prod.ext_iff] at hmem
    exact ⟨[], by rw [hmem.2, List.append_nil]⟩
  | node f l r ihl ihr =>
    intro p a ca hp hmem
    rw [generateCodes, List.mem_append] at hmem
    rcases hmem with hmem | hmem
    · obtain ⟨q, hq⟩ := ihl (p ++ ['0']) a ca (by simp) hmem
      exact ⟨'0' :: q, by rw [hq, List.append_assoc, List.singleton_append]⟩
    · obtain ⟨q, hq⟩ := ihr (p ++ ['1']) a ca (by simp) hmem
      exact ⟨'1' :: q, by rw [hq, List.append_assoc, List.singleton_append]⟩

/-- Codes generated for distinct symbols, from any tree and path, are never
prefixes of one another: inside one subtree this is the induction
hypothesis, and across the two subtrees the codes differ right after the
shared path (`'0'` against `'1'`). -/
theorem generateCodes_no_pre :
    ∀ (t : HTree) (p : List Char) (a b : Char) (ca cb : List Char),
      (a, ca) ∈ generateCodes t p → (b, cb) ∈ generateCodes t p → a ≠ b →
      ¬ ca <+: cb := by
  intro t
  induction t with
  | leaf c f =>
    intro p a b ca cb hma hmb hab
    simp only [generateCodes, List.mem_singleton, Prod.ext_iff] at hma hmb
    exact absurd (hma.1.trans hmb.1.symm) hab
  | node f l r ihl ihr =>
    intro p a b ca cb hma hmb hab
    rw [generateCodes, List.mem_append] at hma hmb
    rcases hma with hma | hma <;> rcases hmb with hmb | hmb
    · exact ihl (p ++ ['0']) a b ca cb hma hmb hab
    · obtain ⟨qa, rfl⟩ := generateCodes_extends l (p ++ ['0']) a ca (by simp) hma
      obtain ⟨qb, rfl⟩ := generateCodes_extends r (p ++ ['1']) b cb (by simp) hmb
      intro hpre
      obtain ⟨s, hs⟩ := hpre
      simp only [List.append_assoc, List.singleton_append] at hs
      have h2 := congrArg (List.drop p.length) hs
      rw [List.drop_left, List.drop_left] at h2
      simp at h2
    · obtain ⟨qa, rfl⟩ := generateCodes_extends r (p ++ ['1']) a ca (by simp) hma
      obtain ⟨qb, rfl⟩ := generateCodes_extends l (p ++ ['0']) b cb (by simp) hmb
      intro hpre
      obtain ⟨s, hs⟩ := hpre
      simp only [List.append_assoc, List.singleton_append] at hs
      have h2 := congrArg (List.drop p.length) hs
      rw [List.drop_left, List.drop_left] at h2
      simp at h2
    · exact ihr (p ++ ['1']) a b ca cb hma hmb hab

/-- Folding the frequency bump over a constant run keeps a single entry and
counts it. -/
theorem foldl_bumpFreq_const (c : Char) :
    ∀ (rest : List Char) (k : Nat), (∀ x ∈ rest, x = c) →
      rest.foldl bumpFreq [(c, k)] = [(c, k + rest.length)] := by
  intro rest
  induction rest with
  | nil => intro k _; simp
  | cons d rest' ih =>
    intro k hall
    have hd : d = c := hall d (List.mem_cons_self d rest')
    subst hd
    simp only [List.foldl_cons, bumpFreq, if_true]
    rw [ih (k + 1) fun x hx => hall x (List.mem_cons_of_mem _ hx)]
    simp only [List.length_cons]
    have heq : k + 1 + rest'.length = k + (rest'.length + 1) := by omega
    rw [heq]

/-! ## Claim theorems (concrete/easy group) -/

/-- Claim C1 (code bug, evaluated at the failing input): LZ77 does NOT
round-trip.  For input `"aaa"` the encoder emits
`[(0,0,'a'), (1,1,'a'), (2,1,'')]` — each interior match also carries
`nextChar = data[i + length]` while the cursor advances by only
`max(1, length)`, so the character after the match is encoded twice — and
decoding yields `"aaaa"`, not `"aaa"`. -/
theorem lz77_roundtrip_violation :
    lz77DecompressData (lz77CompressData ['a','a','a']) = ['a','a','a','a'] ∧
    ['a','a','a','a'] ≠ ['a','a','a'] := by decide

/-- Claim C2 (counterexample): the RLE round-trip fails on the digit-bearing
input `"5a"`: it is compressed literally to `"5a"`, which the decoder
re-reads as a count, producing `"aaaaa"`. -/
theorem rle_roundtrip_counterexample :
    (rleCompress ['5','a']).compressedData = Payload.str ['5','a'] ∧
    rleDecompressData ['5','a'] = some ['a','a','a','a','a'] ∧
    some ['a','a','a','a','a'] ≠ some ['5','a'] := by decide

/-- Claim C3 (counterexample): for `"aaaa"` the encoder emits three triples,
not the claimed two; the triple after the first literal is `(1,1,'a')`, not a
back-reference capturing the whole remaining run, because the match search
stops at the window end (`window[j + matchLength]` is `undefined` there). -/
theorem lz77_selfOverlap_counterexample :
    (lz77CompressData ['a','a','a','a']).length = 3 ∧
    lz77CompressData ['a','a','a','a'] =
      [⟨0, 0, some 'a'⟩, ⟨1, 1, some 'a'⟩, ⟨2, 2, none⟩] := by decide

/-- Claim C3 (amended): the encoder's match search never extends past the
window end, so every emitted triple has `length ≤ offset` (no
self-overlapping references are ever produced); concretely, `"aaaa"` encodes
as the three triples `(0,0,'a')`, `(1,1,'a')`, `(2,2,end)`. -/
theorem lz77_match_within_window :
    (∀ (data : List Char) (fuel i : Nat) (t : LZTriple),
        t ∈ lz77Go data fuel i → t.length ≤ t.offset) ∧
    lz77CompressData ['a','a','a','a'] =
      [⟨0, 0, some 'a'⟩, ⟨1, 1, some 'a'⟩, ⟨2, 2, none⟩] :=
  ⟨fun data fuel i t ht => lz77Go_length_le_offset data fuel i t ht, by decide⟩

/-- Witness for `lz77_match_within_window` at a concrete emitted triple. -/
theorem lz77_match_within_window_witness :
    (⟨1, 1, some 'a'⟩ : LZTriple) ∈ lz77Go ['a','a','a'] 3 0 ∧
    (⟨1, 1, some 'a'⟩ : LZTriple).length ≤ (⟨1, 1, some 'a'⟩ : LZTriple).offset :=
  ⟨by decide, lz77_match_within_window.1 ['a','a','a'] 3 0 ⟨1, 1, some 'a'⟩ (by decide)⟩

/-- Claim C4 (counterexample): encoding `"aaa"`, at position 2 the window is
`"aa"` and the look-ahead `"a"`; both window starts achieve the maximal
match length 1, the smallest offset among them is 1, yet the emitted triple
carries offset 2. -/
theorem lz77_tiebreak_counterexample :
    lz77CompressData ['a','a','a'] =
      [⟨0, 0, some 'a'⟩, ⟨1, 1, some 'a'⟩, ⟨2, 1, none⟩] ∧
    matchLenAt ['a','a'] ['a'] 0 = 1 ∧
    matchLenAt ['a','a'] ['a'] 1 = 1 ∧
    (1 : Nat) < 2 := by decide

/-- Claim C4 (amended): among the window start positions achieving the
maximal common-prefix length with the look-ahead, the emitted match carries
the LARGEST offset (the least recent occurrence): the scan walks from the
window's far end toward the cursor and replaces the best match only on
strictly greater length, so the first maximiser — the one furthest back —
wins every tie. -/
theorem lz77_tiebreak_largest_offset (window lookAhead : List Char) :
    (∀ j, j < window.length →
      matchLenAt window lookAhead j ≤ (findBestGo lookAhead window (0, 0)).2) ∧
    (0 < (findBestGo lookAhead window (0, 0)).2 →
      ∃ j, j < window.length ∧
        matchLenAt window lookAhead j = (findBestGo lookAhead window (0, 0)).2 ∧
        (findBestGo lookAhead window (0, 0)).1 = window.length - j ∧
        ∀ j', j' < window.length →
          matchLenAt window lookAhead j' = (findBestGo lookAhead window (0, 0)).2 →
          window.length - j' ≤ (findBestGo lookAhead window (0, 0)).1) := by
  constructor
  · intro j hj
    apply findBestGo_le
    · exact List.drop_suffix j window
    · intro hnil
      have hcon := congrArg List.length hnil
      simp [List.length_drop] at hcon
      omega
  · intro hpos
    rcases findBestGo_provenance lookAhead window (0, 0) with heq | ⟨_, t, hts, htne, heq, hmax⟩
    · rw [heq] at hpos
      exact absurd hpos (Nat.lt_irrefl 0)
    · have htlen : t.length ≤ window.length := List.IsSuffix.length_le hts
      have htpos : 0 < t.length := List.length_pos.mpr htne
      refine ⟨window.length - t.length, by omega, ?_, ?_, ?_⟩
      · rw [matchLenAt, drop_sub_length_of_suffix t window hts, heq]
      · rw [heq]
        show t.length = window.length - (window.length - t.length)
        omega
      · intro j' hj' hmeq
        have hsuf : window.drop j' <:+ window := List.drop_suffix j' window
        have hulen : (window.drop j').length = window.length - j' := List.length_drop j' window
        rw [matchLenAt] at hmeq
        have hle : (window.drop j').length ≤ t.length := by
          by_contra hgt
          have hcon := hmax (window.drop j') hsuf (Nat.lt_of_not_le hgt)
          rw [hmeq] at hcon
          exact Nat.lt_irrefl _ hcon
        rw [heq]
        show window.length - j' ≤ t.length
        omega

/-- Witness for `lz77_tiebreak_largest_offset` at a concrete window. -/
theorem lz77_tiebreak_largest_offset_witness :
    matchLenAt ['a','a'] ['a'] 0 ≤ (findBestGo ['a'] ['a','a'] (0, 0)).2 :=
  (lz77_tiebreak_largest_offset ['a','a'] ['a']).1 0 (by decide)

/-- Claim C5 (counterexample): asked to decode a Huffman payload,
`decompressData` does not fail — it returns the fixed message string as a
normal (non-empty) result. -/
theorem decompress_huffman_returns_message :
    decompressData (Payload.str []) "Huffman Coding" =
      Except.ok ("Huffman decompression requires the original code table".toList) ∧
    ("Huffman decompression requires the original code table".toList : List Char) ≠ [] :=
  ⟨rfl, by decide⟩

/-- Claim C5 (amended): `decompressData` throws
`Unsupported algorithm: <name>` for every name outside the three supported
ones, while for `"Huffman Coding"` it returns the fixed message string
`'Huffman decompression requires the original code table'` as a normal
result instead of failing. -/
theorem decompress_error_behavior :
    (∀ (p : Payload) (name : String),
        name ≠ "Run-Length Encoding" → name ≠ "LZ77" → name ≠ "Huffman Coding" →
        decompressData p name = Except.error ("Unsupported algorithm: " ++ name)) ∧
    (∀ p : Payload, decompressData p "Huffman Coding" =
        Except.ok ("Huffman decompression requires the original code table".toList)) := by
  constructor
  · intro p name h1 h2 h3
    simp [decompressData, h1, h2, h3]
  · intro p
    rfl

/-- Witness for `decompress_error_behavior` at the unknown name `"gzip"`. -/
theorem decompress_error_behavior_witness :
    decompressData (Payload.str []) "gzip" =
      Except.error ("Unsupported algorithm: " ++ "gzip") :=
  decompress_error_behavior.1 (Payload.str []) "gzip" (by decide) (by decide) (by decide)

/-- Claim C7: every maximal run (of length at most the 255 cap) of length
`> 3` is emitted as the decimal count followed by the symbol; a run of
length 2–3 is emitted in count-symbol form only when the symbol is
non-alphanumeric, and otherwise literally; concretely,
`rleCompress("aaaabbbccc")` produces `"4abbbccc"`. -/
theorem rle_policy_boundary :
    (∀ (c : Char) (count : Nat) (rest : List Char), 1 ≤ count → count ≤ 255 →
      rest.head? ≠ some c →
      rleCompressData (List.replicate count c ++ rest) =
        (if 3 < count ∨ (1 < count ∧ isAlphaNumChar c = false) then
          Nat.toDigits 10 count ++ [c]
        else List.replicate count c) ++ rleCompressData rest) ∧
    rleCompressData ['a','a','a','a','b','b','b','c','c','c'] =
      ['4','a','b','b','b','c','c','c'] := by
  constructor
  · intro c count rest h1 h255 hhead
    cases count with
    | zero => omega
    | succ k =>
      rw [List.replicate_succ, List.cons_append]
      simp only [rleCompressData]
      rw [rleRun_replicate c k 1 rest (by omega)]
      have hnum : 1 + k = k + 1 := Nat.add_comm 1 k
      rw [hnum]
      cases rest with
      | nil =>
        simp only [rleRun, rleCompressData, List.append_nil, emitRun,
          List.replicate_succ]
      | cons d rest' =>
        have hdc : ¬(d = c) := by
          intro h
          exact hhead (by rw [h]; rfl)
        simp only [rleRun]
        rw [if_neg fun h => hdc h.1]
        simp only [rleCompressData, emitRun, List.replicate_succ]
  · decide

/-- Witness for `rle_policy_boundary` at a run of four `'a'`s before a
`'b'`. -/
theorem rle_policy_boundary_witness :
    rleCompressData (List.replicate 4 'a' ++ ['b']) =
      (if 3 < 4 ∨ (1 < 4 ∧ isAlphaNumChar 'a' = false) then
        Nat.toDigits 10 4 ++ ['a']
      else List.replicate 4 'a') ++ rleCompressData ['b'] :=
  rle_policy_boundary.1 'a' 4 ['b'] (by decide) (by decide) (by decide)

/-- Claim C2 (amended): the RLE round-trip `decode(encode(x)) = x` holds for
every finite symbol sequence that contains no decimal digit character;
digit-bearing inputs can be mis-parsed on decode (see the counterexample),
so the unconditional claim fails. -/
theorem rle_roundtrip_noDigit_amended (x : List Char)
    (hx : ∀ ch ∈ x, isDigitChar ch = false) :
    decompressData (rleCompress x).compressedData "Run-Length Encoding" =
      Except.ok x := by
  have h := rle_roundtrip_of_noDigit x hx
  simp [decompressData, rleCompress, h]

/-- Witness for `rle_roundtrip_noDigit_amended` on `"hi!!!!"`. -/
theorem rle_roundtrip_noDigit_amended_witness :
    decompressData (rleCompress ['h','i','!','!','!','!']).compressedData
        "Run-Length Encoding" =
      Except.ok ['h','i','!','!','!','!'] :=
  rle_roundtrip_noDigit_amended ['h','i','!','!','!','!'] (by decide)

/-- Claim C10: for every finite symbol sequence with no decimal digit
character, `rleDecompress (rleCompress x).compressedData` returns exactly
`x` — the digit/literal ambiguity can only break the round-trip when the
input itself contains digits. -/
theorem rle_roundtrip_digitFree (x : List Char)
    (hx : ∀ ch ∈ x, isDigitChar ch = false) :
    rleDecompressData (rleCompressData x) = some x :=
  rle_roundtrip_of_noDigit x hx

/-- Witness for `rle_roundtrip_digitFree` on `"zzzzz"`. -/
theorem rle_roundtrip_digitFree_witness :
    rleDecompressData (rleCompressData ['z','z','z','z','z']) =
      some ['z','z','z','z','z'] :=
  rle_roundtrip_digitFree ['z','z','z','z','z'] (by decide)

/-- Claim C6: for every input string, the code table produced by
`generateCodes(buildHuffmanTree(buildFrequencyTable(input)))` is
prefix-free: for all distinct symbols `a` and `b` in the table, neither
code is a prefix of the other. -/
theorem huffman_codes_prefixFree (data : List Char) (a b : Char)
    (ca cb : List Char) (hma : (a, ca) ∈ huffmanCodes data)
    (hmb : (b, cb) ∈ huffmanCodes data) (hab : a ≠ b) :
    ¬ ca <+: cb ∧ ¬ cb <+: ca := by
  rcases hbuild : buildHuffmanTree (buildFrequencyTable data) with _ | t
  · simp only [huffmanCodes, hbuild] at hma
    exact absurd hma (List.not_mem_nil _)
  · simp only [huffmanCodes, hbuild] at hma hmb
    exact ⟨generateCodes_no_pre t [] a b ca cb hma hmb hab,
      generateCodes_no_pre t [] b a cb ca hmb hma (Ne.symm hab)⟩

/-- Witness for `huffman_codes_prefixFree` on the input `"ab"`. -/
theorem huffman_codes_prefixFree_witness :
    (('a', ['0']) ∈ huffmanCodes ['a','b']) ∧
    (('b', ['1']) ∈ huffmanCodes ['a','b']) ∧
    ¬ ['0'] <+: ['1'] ∧ ¬ ['1'] <+: ['0'] :=
  ⟨by decide, by decide,
    huffman_codes_prefixFree ['a','b'] 'a' 'b' ['0'] ['1']
      (by decide) (by decide) (by decide)⟩

/-- Claim C8: for every non-empty input whose distinct symbols number
exactly one (written as `c :: rest` with every element of `rest` equal to
`c`), the generated code table maps that symbol to the single-bit code
`"0"`, never the empty string. -/
theorem huffman_single_symbol_code (c : Char) (rest : List Char)
    (h : ∀ x ∈ rest, x = c) :
    huffmanCodes (c :: rest) = [(c, ['0'])] := by
  have hfreq : buildFrequencyTable (c :: rest) = [(c, 1 + rest.length)] := by
    simp only [buildFrequencyTable, List.foldl_cons]
    exact foldl_bumpFreq_const c rest 1 h
  simp only [huffmanCodes, hfreq, buildHuffmanTree]
  simp [buildLoop, generateCodes]

/-- Witness for `huffman_single_symbol_code` on the input `"aaa"`. -/
theorem huffman_single_symbol_code_witness :
    huffmanCodes ['a','a','a'] = [('a', ['0'])] :=
  huffman_single_symbol_code 'a' ['a','a'] (by decide)

/-- Claim C9 (counterexample): decoding Huffman's empty-input payload does
not return the empty sequence — it returns the fixed message string. -/
theorem empty_huffman_decode_counterexample :
    decompressData (huffmanCompress []).compressedData "Huffman Coding" =
      Except.ok ("Huffman decompression requires the original code table".toList) ∧
    ("Huffman decompression requires the original code table".toList : List Char) ≠ [] :=
  ⟨rfl, by decide⟩

/-- Claim C9 (amended): all three encoders report `originalSize = 0` on the
empty input; decoding the RLE and LZ77 empty-input payloads returns the
empty sequence, while the Huffman branch returns the fixed
table-unavailable message string instead. -/
theorem empty_input_behavior :
    (huffmanCompress []).originalSize = 0 ∧
    (rleCompress []).originalSize = 0 ∧
    (lz77Compress []).originalSize = 0 ∧
    decompressData (rleCompress []).compressedData "Run-Length Encoding" = Except.ok [] ∧
    decompressData (lz77Compress []).compressedData "LZ77" = Except.ok [] ∧
    decompressData (huffmanCompress []).compressedData "Huffman Coding" =
      Except.ok ("Huffman decompression requires the original code table".toList) :=
  ⟨rfl, rfl, rfl, rfl, rfl, rfl⟩

end CompressionPortal
